import Mathlib

/-!
# Verification of `uaclient/config.py` (ubuntu-advantage-client)

Shallow embedding of the layered configuration resolver (`parse_config`)
and the keyed on-disk cache store (`UAConfig.data_path` / `read_cache` /
`write_cache` / `machine_token` / `is_attached` / `contract_url`) of
`src/uaclient/config.py`, together with proofs of the testable properties
stated for it.

Modelling conventions:
* Python configuration values are strings or ints (`CVal`); the config
  mapping is an insertion-ordered association list with Python-`dict`
  update semantics (`alistSet` replaces in place, appends when new).
* Python exceptions become `Except PyErr`.
* The filesystem is explicit: an association list from path to file
  content, plus the set of existing directories.
* `parse_config` takes the parsed content of the discovered config file
  as an `Option` (the path discovery `cwd`/`UA_CONFIG_FILE` dance and the
  YAML parse are I/O done by the interpreter before the merge logic that
  is being verified; `none` models "no config file exists on disk"), the
  process environment as an ordered list of name/value pairs, and the
  home directory used by `os.path.expanduser`.
* JSON values (`JVal`) carry ints for JSON numbers (the cached payloads
  in this module are objects of strings); `dumps`/`maybe_parse_json`
  model the serializer/parser pair of the `json` library with `,`/`:`
  separators and `\"`-`\\` string escapes.
-/

/-- Python configuration values appearing in this module: strings, or the
integer log levels of the `logging` module. -/
inductive CVal where
  | str (s : String)
  | int (n : Int)
deriving DecidableEq, Repr

/-- Python exceptions that the embedded code can raise. -/
inductive PyErr where
  | attributeError
  | keyError
  | configAbsentError
deriving DecidableEq, Repr

/-- Uppercase one ASCII character (`str.upper` acts per character; the
strings this module uppercases are ASCII log-level names). -/
def charUpper (c : Char) : Char :=
  match c with
  | 'a' => 'A' | 'b' => 'B' | 'c' => 'C' | 'd' => 'D' | 'e' => 'E'
  | 'f' => 'F' | 'g' => 'G' | 'h' => 'H' | 'i' => 'I' | 'j' => 'J'
  | 'k' => 'K' | 'l' => 'L' | 'm' => 'M' | 'n' => 'N' | 'o' => 'O'
  | 'p' => 'P' | 'q' => 'Q' | 'r' => 'R' | 's' => 'S' | 't' => 'T'
  | 'u' => 'U' | 'v' => 'V' | 'w' => 'W' | 'x' => 'X' | 'y' => 'Y'
  | 'z' => 'Z' | c => c

/-- Lowercase one ASCII character. -/
def charLower (c : Char) : Char :=
  match c with
  | 'A' => 'a' | 'B' => 'b' | 'C' => 'c' | 'D' => 'd' | 'E' => 'e'
  | 'F' => 'f' | 'G' => 'g' | 'H' => 'h' | 'I' => 'i' | 'J' => 'j'
  | 'K' => 'k' | 'L' => 'l' | 'M' => 'm' | 'N' => 'n' | 'O' => 'o'
  | 'P' => 'p' | 'Q' => 'q' | 'R' => 'r' | 'S' => 's' | 'T' => 't'
  | 'U' => 'u' | 'V' => 'v' | 'W' => 'w' | 'X' => 'x' | 'Y' => 'y'
  | 'Z' => 'z' | c => c

/-- Python `str.upper` (ASCII). -/
def pyUpper (s : String) : String := ⟨s.data.map charUpper⟩

/-- Python `str.lower` (ASCII). -/
def pyLower (s : String) : String := ⟨s.data.map charLower⟩

/-- Whether the first list is a leading segment of the second. -/
def listPrefixOf (pre s : List Char) : Bool :=
  match pre, s with
  | [], _ => true
  | c :: cs, d :: ds => c = d && listPrefixOf cs ds
  | _, _ => false

/-- Python `str.startswith`. -/
def pyStartsWith (s pre : String) : Bool := listPrefixOf pre.data s.data

/-- Python `str.endswith`. -/
def pyEndsWith (s suf : String) : Bool :=
  listPrefixOf suf.data.reverse s.data.reverse

/-- Python slicing `s[n:]`. -/
def pyDrop (s : String) (n : Nat) : String := ⟨s.data.drop n⟩

/-- `d[k]` lookup in a Python dict represented as an association list
(first binding wins; the lists we build keep keys unique). -/
def alistGet {α : Type} : List (String × α) → String → Option α
  | [], _ => none
  | (k', v) :: t, k => if k' = k then some v else alistGet t k

/-- `d[k] = v` on a Python dict: replace the binding in place if the key
exists, else append it. -/
def alistSet {α : Type} : List (String × α) → String → α → List (String × α)
  | [], k, v => [(k, v)]
  | (k', v') :: t, k, v =>
      if k' = k then (k, v) :: t else (k', v') :: alistSet t k v

/-- `d.update(e)`: apply every binding of `e`, in order, to `d`. -/
def alistUpdate {α : Type} (d e : List (String × α)) : List (String × α) :=
  e.foldl (fun a kv => alistSet a kv.1 kv.2) d

/-- The value the *last* binding of `k` in the list assigns to it
(the binding that survives `alistUpdate`). -/
def lastKey {α : Type} : List (String × α) → String → Option α
  | [], _ => none
  | (k', v) :: t, k =>
      match lastKey t k with
      | some w => some w
      | none => if k' = k then some v else none

/-- `BASE_AUTH_URL` of `config.py`. -/
def BASE_AUTH_URL : String := "https://login.ubuntu.com"

/-- `BASE_SERVICE_URL` of `config.py`. -/
def BASE_SERVICE_URL : String := "https://uaservice.canonical.com"

/-- `logging.INFO` of the Python standard library: the *integer* 20. -/
def loggingINFO : Int := 20

/-- `CONFIG_DEFAULTS` of `config.py`.  Note that `log_level` defaults to
the integer `logging.INFO`, not a string. -/
def CONFIG_DEFAULTS : List (String × CVal) :=
  [("sso_auth_url", .str BASE_AUTH_URL),
   ("service_url", .str BASE_SERVICE_URL),
   ("data_dir", .str "/var/lib/ubuntu-advantage"),
   ("log_level", .int loggingINFO)]

/-- `os.path.expanduser` restricted to the `~` of the calling user, whose
home directory is passed explicitly (`~otheruser`, resolved through the
pwd database, is external and left unchanged here).  On a non-string
argument Python fails on the `.startswith` attribute access; callers
below surface that as `PyErr.attributeError`. -/
def expanduser (home path : String) : String :=
  if path = "~" then home
  else if pyStartsWith path "~/" then home ++ pyDrop path 1
  else path

/-- One step of the environment scan of `parse_config`: a variable whose
name starts with `UA_` is recorded under its name lowercased with the
three leading characters stripped (`key.lower()[3:]`). -/
def envStep (d : List (String × CVal)) (kv : String × String) :
    List (String × CVal) :=
  if pyStartsWith kv.1 "UA_" then alistSet d (pyDrop (pyLower kv.1) 3) (.str kv.2)
  else d

/-- The last environment value that lands on merged key `k`: the value of
the last `UA_`-prefixed variable whose stripped lowercased name is `k`. -/
def lastEnvVal : List (String × String) → String → Option String
  | [], _ => none
  | kv :: t, k =>
      match lastEnvVal t k with
      | some v => some v
      | none =>
          if pyStartsWith kv.1 "UA_" ∧ pyDrop (pyLower kv.1) 3 = k then some kv.2
          else none

/-- `parse_config` of `config.py`: start from a copy of `CONFIG_DEFAULTS`,
merge the parsed config file (when one was discovered), merge the
`UA_`-prefixed environment variables, then uppercase `log_level` and
tilde-expand `data_dir`.  The two post-processing steps call `.upper()`
resp. `.startswith('~')` on the stored value, which raises
`AttributeError` when that value is an int. -/
def parse_config (fileCfg : Option (List (String × CVal)))
    (env : List (String × String)) (home : String) :
    Except PyErr (List (String × CVal)) :=
  let cfg := CONFIG_DEFAULTS
  let cfg := match fileCfg with
    | some fc => alistUpdate cfg fc
    | none => cfg
  let env_keys := env.foldl envStep []
  let cfg := alistUpdate cfg env_keys
  match alistGet cfg "log_level" with
  | none => .error .keyError
  | some (.int _) => .error .attributeError
  | some (.str lvl) =>
      let cfg := alistSet cfg "log_level" (.str (pyUpper lvl))
      match alistGet cfg "data_dir" with
      | none => .error .keyError
      | some (.int _) => .error .attributeError
      | some (.str dd) => .ok (alistSet cfg "data_dir" (.str (expanduser home dd)))

/-- Whether a `parse_config` outcome is the `ConfigAbsentError` exception
declared (but, as proved below, never raised) by `config.py`. -/
def raisesConfigAbsent {α : Type} : Except PyErr α → Bool
  | .error .configAbsentError => true
  | _ => false

/-- JSON values cached by `UAConfig` (numbers restricted to integers; the
payloads handled by this module are objects/arrays of strings). -/
inductive JVal where
  | null
  | bool (b : Bool)
  | num (n : Int)
  | str (s : String)
  | arr (elems : List JVal)
  | obj (members : List (String × JVal))

/-- Python truthiness of a parsed JSON value (`if json_content`). -/
def jTruthy : JVal → Bool
  | .null => false
  | .bool b => b
  | .num n => n != 0
  | .str s => s != ""
  | .arr l => !l.isEmpty
  | .obj l => !l.isEmpty

/-- The character of a decimal digit. -/
def digitChar (d : Nat) : Char :=
  match d with
  | 0 => '0' | 1 => '1' | 2 => '2' | 3 => '3' | 4 => '4'
  | 5 => '5' | 6 => '6' | 7 => '7' | 8 => '8' | _ => '9'

/-- Decimal digits of a natural number, most significant first. -/
def natChars (n : Nat) : List Char :=
  if n = 0 then ['0'] else ((Nat.digits 10 n).map digitChar).reverse

/-- Decimal rendering of an integer, as `json.dumps` prints it. -/
def intChars (n : Int) : List Char :=
  if n < 0 then '-' :: natChars n.natAbs else natChars n.toNat

/-- JSON string escaping: `"` and `\` get a backslash, the rest is
verbatim (the `\uXXXX` escapes for control/non-ASCII characters of
`json.dumps(ensure_ascii=True)` are immaterial here and elided). -/
def escChars : List Char → List Char
  | [] => []
  | c :: t =>
      if c = '"' ∨ c = '\\' then '\\' :: c :: escChars t
      else c :: escChars t

mutual

/-- Modelled from the spec: `json.dumps` (the JSON library is external to
the module, "used, not reimplemented"); serializes with `,`/`:`
separators. -/
def dumpVal : JVal → List Char
  | .null => "null".data
  | .bool true => "true".data
  | .bool false => "false".data
  | .num n => intChars n
  | .str s => '"' :: (escChars s.data ++ ['"'])
  | .arr [] => "[]".data
  | .arr (v :: t) => '[' :: (dumpVal v ++ dumpITail t)
  | .obj [] => "{}".data
  | .obj (m :: t) => '{' :: (dumpMember m ++ dumpOTail t)

/-- One `"key":value` member of a serialized object. -/
def dumpMember : String × JVal → List Char
  | (k, v) => '"' :: (escChars k.data ++ '"' :: ':' :: dumpVal v)

/-- The remaining elements of a serialized array, each preceded by `,`,
closed by `]`. -/
def dumpITail : List JVal → List Char
  | [] => [']']
  | v :: t => ',' :: (dumpVal v ++ dumpITail t)

/-- The remaining members of a serialized object, each preceded by `,`,
closed by `}`. -/
def dumpOTail : List (String × JVal) → List Char
  | [] => ['}']
  | m :: t => ',' :: (dumpMember m ++ dumpOTail t)

end

/-- `json.dumps` on a whole value, as a string. -/
def dumps (v : JVal) : String := String.mk (dumpVal v)

/-- Read a run of decimal digits, accumulating their value; stops at the
first non-digit. -/
def readDigits : List Char → Nat → Nat × List Char
  | [], acc => (acc, [])
  | c :: r, acc =>
      if c.isDigit then readDigits r (10 * acc + (c.toNat - 48))
      else (acc, c :: r)

/-- Parse the body of a JSON string after the opening quote, undoing
`escChars`; returns the decoded characters and the input after the
closing quote. -/
def parseStrChars : List Char → Option (List Char × List Char)
  | [] => none
  | '"' :: r => some ([], r)
  | '\\' :: r =>
      match r with
      | [] => none
      | c :: r2 =>
          match parseStrChars r2 with
          | some (s, r3) => some (c :: s, r3)
          | none => none
  | c :: r =>
      match parseStrChars r with
      | some (s, r3) => some (c :: s, r3)
      | none => none

/-- Parse a JSON number (an optionally signed run of digits). -/
def parseNum : List Char → Option (JVal × List Char)
  | '-' :: c :: r =>
      if c.isDigit then
        let p := readDigits (c :: r) 0
        some (.num (-(p.1 : Int)), p.2)
      else none
  | c :: r =>
      if c.isDigit then
        let p := readDigits (c :: r) 0
        some (.num (p.1 : Int), p.2)
      else none
  | [] => none

mutual

/-- Modelled from the spec: the parsing side of the external JSON
library (`json.loads` as used by `util.maybe_parse_json`, which is in
`uaclient/util.py`, not under `src/`): recursive-descent over the
serialized form, dispatching on the first character, fuelled for
termination. -/
def parseVal : Nat → List Char → Option (JVal × List Char)
  | 0, _ => none
  | fuel + 1, input =>
      match input with
      | [] => none
      | c :: r =>
          if c.isDigit ∨ c = '-' then parseNum (c :: r)
          else if c = 'n' then
            match r with
            | 'u' :: 'l' :: 'l' :: r2 => some (.null, r2)
            | _ => none
          else if c = 't' then
            match r with
            | 'r' :: 'u' :: 'e' :: r2 => some (.bool true, r2)
            | _ => none
          else if c = 'f' then
            match r with
            | 'a' :: 'l' :: 's' :: 'e' :: r2 => some (.bool false, r2)
            | _ => none
          else if c = '"' then
            match parseStrChars r with
            | some (s, r3) => some (.str (String.mk s), r3)
            | none => none
          else if c = '[' then
            match r with
            | ']' :: r2 => some (.arr [], r2)
            | _ =>
                match parseItems fuel r with
                | some (l, r3) => some (.arr l, r3)
                | none => none
          else if c = '{' then
            match r with
            | '}' :: r2 => some (.obj [], r2)
            | _ =>
                match parseMembers fuel r with
                | some (l, r3) => some (.obj l, r3)
                | none => none
          else none

/-- Parse one or more array elements separated by `,`, closed by `]`. -/
def parseItems : Nat → List Char → Option (List JVal × List Char)
  | 0, _ => none
  | fuel + 1, input =>
      match parseVal fuel input with
      | some (v, ',' :: r2) =>
          match parseItems fuel r2 with
          | some (vs, r3) => some (v :: vs, r3)
          | none => none
      | some (v, ']' :: r2) => some ([v], r2)
      | _ => none

/-- Parse one or more `"key":value` object members separated by `,`,
closed by `}`. -/
def parseMembers : Nat → List Char → Option (List (String × JVal) × List Char)
  | 0, _ => none
  | fuel + 1, input =>
      match input with
      | '"' :: r =>
          match parseStrChars r with
          | some (k, ':' :: r2) =>
              match parseVal fuel r2 with
              | some (v, ',' :: r3) =>
                  match parseMembers fuel r3 with
                  | some (ms, r4) => some ((String.mk k, v) :: ms, r4)
                  | none => none
              | some (v, '}' :: r3) => some ([(String.mk k, v)], r3)
              | _ => none
          | _ => none
      | _ => none

end

/-- Modelled from the spec: `util.maybe_parse_json` (`uaclient/util.py`,
not under `src/`) — "attempts JSON parsing", returning the parsed
structure on success and `None` (here `none`) on any parse failure. -/
def maybe_parse_json (s : String) : Option JVal :=
  match parseVal (s.data.length + 1) s.data with
  | some (v, []) => some v
  | _ => none

/-- What `read_cache` returns / `write_cache` accepts: raw text, or a
structured (JSON) value. -/
inductive CacheContent where
  | ofStr (s : String)
  | ofJson (v : JVal)

/-- Python truthiness of a cache value. -/
def contentTruthy : CacheContent → Bool
  | .ofStr s => s != ""
  | .ofJson v => jTruthy v

/-- Python truthiness of an optional cache value (`None` is falsy). -/
def truthyOpt : Option CacheContent → Bool
  | none => false
  | some c => contentTruthy c

/-- The filesystem visible to the cache store: file contents by path,
plus the set of existing directories. -/
structure FileSystem where
  files : List (String × String)
  dirs : List String

/-- `os.path.exists` + `util.load_file` in one step: the content of the
file at `p`, when one exists. -/
def fsLookup (fs : FileSystem) (p : String) : Option String :=
  alistGet fs.files p

/-- Modelled from the spec: `util.write_file` (`uaclient/util.py`, not
under `src/`) — "writes the full content to the resolved path, fully
overwriting any prior content". -/
def fsWrite (fs : FileSystem) (p c : String) : FileSystem :=
  { fs with files := alistSet fs.files p c }

/-- `os.makedirs`: create the directory (with parents). -/
def fsMakedirs (fs : FileSystem) (d : String) : FileSystem :=
  { fs with dirs := d :: fs.dirs }

/-- `os.path.join` for the two-argument uses in `config.py`. -/
def osPathJoin (a b : String) : String :=
  if pyStartsWith b "/" then b
  else if a = "" ∨ pyEndsWith a "/" then a ++ b
  else a ++ "/" ++ b

/-- `UAConfig.data_paths`: the fixed key-to-filename table. -/
def data_paths : List (String × String) :=
  [("accounts", "accounts.json"),
   ("account-contracts", "account-contracts.json"),
   ("account-users", "account-users.json"),
   ("machine-contracts", "machine-contracts.json"),
   ("machine-access-esm", "machine-access-esm.json"),
   ("machine-access-fips", "machine-access-fips.json"),
   ("machine-access-fips-updates", "machine-access-fips-updates.json"),
   ("machine-access-livepatch", "machine-access-livepatch.json"),
   ("machine-detach", "machine-detach.json"),
   ("machine-token", "machine-token.json"),
   ("macaroon", "sso-macaroon.json"),
   ("oauth", "sso-oauth.json")]

/-- `UAConfig.data_path`: the file path in the data directory represented
by the key.  `data_dir` is the instance's `cfg['data_dir']` (a string in
every configuration any claim concerns). -/
def data_path (data_dir key : String) : String :=
  if key = "" then data_dir
  else
    match alistGet data_paths key with
    | some fn => osPathJoin data_dir fn
    | none => osPathJoin data_dir key

/-- `UAConfig.read_cache`: resolve the path; absent file yields `None`;
otherwise load the content, and return the parsed JSON when it is truthy,
the raw text otherwise (`json_content if json_content else content`). -/
def read_cache (data_dir : String) (fs : FileSystem) (key : String) :
    Option CacheContent :=
  let cache_path := data_path data_dir key
  match fsLookup fs cache_path with
  | none => none
  | some content =>
      match maybe_parse_json content with
      | some j => if jTruthy j then some (.ofJson j) else some (.ofStr content)
      | none => some (.ofStr content)

/-- `UAConfig.read_cache` with the filesystem threaded through
explicitly: its body performs only reads (`os.path.exists`,
`util.load_file`), so the state it passes on is the state it received. -/
def read_cache_st (data_dir : String) (fs : FileSystem) (key : String) :
    Option CacheContent × FileSystem :=
  (read_cache data_dir fs key, fs)

/-- `UAConfig.write_cache`: create the data directory when missing,
serialize non-string content as JSON, and write it to the resolved
path. -/
def write_cache (data_dir : String) (fs : FileSystem) (key : String)
    (content : CacheContent) : FileSystem :=
  let fs1 := if fs.dirs.contains data_dir then fs else fsMakedirs fs data_dir
  let filepath := data_path data_dir key
  let text :=
    match content with
    | .ofStr s => s
    | .ofJson v => dumps v
  fsWrite fs1 filepath text

/-- `UAConfig.machine_token`: memoized `read_cache('machine-token')`
(`memo` is the instance's `_machine_token` slot, `none` on a fresh
instance; the re-read triggers whenever the slot is falsy). -/
def machine_token (data_dir : String) (memo : Option CacheContent)
    (fs : FileSystem) : Option CacheContent :=
  if truthyOpt memo then memo else read_cache data_dir fs "machine-token"

/-- `UAConfig.is_attached`: `bool(self.machine_token)`. -/
def is_attached (data_dir : String) (memo : Option CacheContent)
    (fs : FileSystem) : Bool :=
  truthyOpt (machine_token data_dir memo fs)

/-- `UAConfig.contract_url`: `self.cfg['contract_url']` — a bare
subscript, so a missing key raises `KeyError`. -/
def contract_url (cfg : List (String × CVal)) : Except PyErr CVal :=
  match alistGet cfg "contract_url" with
  | some v => .ok v
  | none => .error .keyError

mutual

/-- Fuel measure for `parseVal`: enough fuel to parse a serialized
value. -/
def sizeV : JVal → Nat
  | .arr l => 1 + sizeA l
  | .obj l => 1 + sizeO l
  | _ => 1

/-- Fuel measure for `parseItems` on a nonempty serialized array body. -/
def sizeA : List JVal → Nat
  | [] => 0
  | v :: t => 1 + sizeV v + sizeA t

/-- Fuel measure for `parseMembers` on a nonempty serialized object
body. -/
def sizeO : List (String × JVal) → Nat
  | [] => 0
  | (_, v) :: t => 1 + sizeV v + sizeO t

end

/-- The input does not begin with a decimal digit (what follows a
serialized value in context: a separator, a closer, or the end). -/
def notDigitStart : List Char → Prop
  | [] => True
  | c :: _ => c.isDigit = false

theorem alistGet_set {α : Type} (d : List (String × α)) (k k' : String) (v : α) :
    alistGet (alistSet d k v) k' = if k = k' then some v else alistGet d k' := by
  induction d with
  | nil => rfl
  | cons kv t ih =>
      obtain ⟨k0, v0⟩ := kv
      by_cases h0 : k0 = k
      · subst h0
        simp only [alistSet, if_pos rfl, alistGet]
        by_cases h1 : k0 = k' <;> simp [h1]
      · simp only [alistSet, if_neg h0, alistGet, ih]
        by_cases h1 : k0 = k'
        · subst h1
          simp only [if_pos rfl]
          have hkk : ¬ k = k0 := fun h => h0 h.symm
          simp [hkk]
        · simp [h1]

theorem lastKey_concat {α : Type} (e : List (String × α)) (kk k : String) (vv : α) :
    lastKey (e ++ [(kk, vv)]) k = if kk = k then some vv else lastKey e k := by
  induction e with
  | nil =>
      simp only [List.nil_append, lastKey]
  | cons kv t ih =>
      obtain ⟨k0, v0⟩ := kv
      simp only [List.cons_append, lastKey, List.append_eq]
      rw [ih]
      by_cases h : kk = k
      · simp [h]
      · simp [h]

theorem alistGet_update {α : Type} (e d : List (String × α)) (k : String) :
    alistGet (alistUpdate d e) k =
      match lastKey e k with
      | some v => some v
      | none => alistGet d k := by
  induction e using List.reverseRecOn generalizing d with
  | nil => rfl
  | append_singleton e kv ih =>
      obtain ⟨kk, vv⟩ := kv
      have hupd : alistUpdate d (e ++ [(kk, vv)]) =
          alistSet (alistUpdate d e) kk vv := by
        simp [alistUpdate]
      rw [hupd, alistGet_set, lastKey_concat, ih]
      by_cases h : kk = k
      · simp [h]
      · simp only [if_neg h]

theorem map_fst_set {α : Type} (d : List (String × α)) (k : String) (v : α) :
    (alistSet d k v).map Prod.fst =
      if k ∈ d.map Prod.fst then d.map Prod.fst
      else d.map Prod.fst ++ [k] := by
  induction d with
  | nil => simp [alistSet]
  | cons kv t ih =>
      obtain ⟨k0, v0⟩ := kv
      by_cases h0 : k0 = k
      · subst h0
        simp [alistSet]
      · simp only [alistSet, if_neg h0, List.map_cons, ih]
        have hne : ¬ k = k0 := fun h => h0 h.symm
        by_cases hm : k ∈ t.map Prod.fst <;> simp [hm, hne]

theorem nodup_keys_set {α : Type} (d : List (String × α)) (k : String) (v : α)
    (h : (d.map Prod.fst).Nodup) : ((alistSet d k v).map Prod.fst).Nodup := by
  rw [map_fst_set]
  by_cases hm : k ∈ d.map Prod.fst
  · simpa [hm]
  · simp [hm, List.nodup_append, h]

theorem lastKey_none_of_not_mem {α : Type} (d : List (String × α)) (k : String)
    (h : k ∉ d.map Prod.fst) : lastKey d k = none := by
  induction d with
  | nil => rfl
  | cons kv t ih =>
      obtain ⟨k0, v0⟩ := kv
      simp only [List.map_cons, List.mem_cons, not_or] at h
      simp only [lastKey, ih h.2]
      have : ¬ k0 = k := fun hh => h.1 hh.symm
      simp [this]

theorem lastKey_set_nodup {α : Type} (d : List (String × α)) (k k' : String)
    (v : α) (h : (d.map Prod.fst).Nodup) :
    lastKey (alistSet d k v) k' = if k = k' then some v else lastKey d k' := by
  induction d with
  | nil => simp [alistSet, lastKey]
  | cons kv t ih =>
      obtain ⟨k0, v0⟩ := kv
      simp only [List.map_cons, List.nodup_cons] at h
      by_cases h0 : k0 = k
      · subst h0
        simp only [alistSet, if_pos rfl, lastKey]
        by_cases hk : k0 = k'
        · subst hk
          rw [lastKey_none_of_not_mem t k0 h.1]
          simp
        · simp only [if_neg hk]
      · simp only [alistSet, if_neg h0, lastKey, ih h.2]
        by_cases hk : k = k'
        · simp [hk]
        · simp only [if_neg hk]

theorem nodup_keys_envfold (env : List (String × String)) :
    ∀ d : List (String × CVal), (d.map Prod.fst).Nodup →
      ((env.foldl envStep d).map Prod.fst).Nodup := by
  induction env with
  | nil => intro d h; simpa [List.foldl]
  | cons kv t ih =>
      intro d h
      simp only [List.foldl_cons]
      apply ih
      unfold envStep
      by_cases hua : pyStartsWith kv.1 "UA_" = true
      · simp only [if_pos hua]
        exact nodup_keys_set _ _ _ h
      · simpa [hua]

theorem lastKey_envfold (env : List (String × String)) :
    ∀ (d : List (String × CVal)) (k : String), (d.map Prod.fst).Nodup →
      lastKey (env.foldl envStep d) k =
        match lastEnvVal env k with
        | some v => some (.str v)
        | none => lastKey d k := by
  induction env with
  | nil => intro d k _; rfl
  | cons kv t ih =>
      intro d k h
      have hstep : ((envStep d kv).map Prod.fst).Nodup := by
        unfold envStep
        by_cases hua : pyStartsWith kv.1 "UA_" = true
        · simp only [if_pos hua]
          exact nodup_keys_set _ _ _ h
        · simpa [hua]
      simp only [List.foldl_cons, ih (envStep d kv) k hstep, lastEnvVal]
      cases hlt : lastEnvVal t k with
      | some v => rfl
      | none =>
          unfold envStep
          by_cases hua : pyStartsWith kv.1 "UA_" = true
          · simp only [if_pos hua]
            rw [lastKey_set_nodup _ _ _ _ h]
            by_cases hk : pyDrop (pyLower kv.1) 3 = k
            · simp [hua, hk]
            · simp [hua, hk]
          · simp [hua]

/-- C1: with no config file on disk and no `UA_`-prefixed environment
variables, `parse_config` does *not* return the default mapping with
`log_level` uppercased — it raises `AttributeError`, because the default
`log_level` is the integer `logging.INFO`, on which
`cfg['log_level'].upper()` fails. -/
theorem parse_config_defaults_raises_attributeError :
    parse_config none [] "/root" = .error .attributeError := rfl

/-- C6: for every combination of config-file presence, file contents and
environment, `parse_config` never raises `ConfigAbsentError`, despite its
docstring declaring that it does when no config file is discovered. -/
theorem parse_config_never_configAbsent :
    ∀ (fileCfg : Option (List (String × CVal)))
      (env : List (String × String)) (home : String),
      raisesConfigAbsent (parse_config fileCfg env home) = false := by
  intro fileCfg env home
  cases fileCfg <;> simp only [parse_config] <;>
    split <;> first | rfl | (split <;> rfl)

/-- C3 counterexample: with environment `UA_LOG_LEVEL=debug` (and no
config file), the resolved configuration maps `log_level` to `"DEBUG"`,
*not* to the variable's raw string value `"debug"`: the post-processing
uppercases it after the override. -/
theorem parse_config_env_raw_value_cex :
    parse_config none [("UA_LOG_LEVEL", "debug")] "/root" =
      .ok [("sso_auth_url", .str BASE_AUTH_URL),
           ("service_url", .str BASE_SERVICE_URL),
           ("data_dir", .str "/var/lib/ubuntu-advantage"),
           ("log_level", .str "DEBUG")] ∧
    CVal.str "DEBUG" ≠ CVal.str "debug" := by
  refine ⟨by rfl, by decide⟩

/-- C3 (amended): a `UA_`-prefixed environment variable overrides the
merged key named by its lowercased prefix-stripped name (last-seen wins,
over any file or default content) — but the final mapping carries the
raw string value only for keys other than `log_level` (whose value is
then uppercased) and `data_dir` (whose value is then tilde-expanded). -/
theorem parse_config_env_override :
    ∀ (fileCfg : Option (List (String × CVal))) (env : List (String × String))
      (home : String) (c : List (String × CVal)) (k v : String),
      lastEnvVal env k = some v →
      parse_config fileCfg env home = .ok c →
      alistGet c k = some (.str
        (if k = "log_level" then pyUpper v
         else if k = "data_dir" then expanduser home v else v)) := by
  intro fileCfg env home c k v henv h
  have hG2 : ∀ d : List (String × CVal),
      alistGet (alistUpdate d (env.foldl envStep [])) k = some (.str v) := by
    intro d
    rw [alistGet_update, lastKey_envfold env [] k (by simp), henv]
  cases fileCfg <;> simp only [parse_config] at h <;>
  · split at h
    · simp at h
    · simp at h
    · rename_i lvl heq
      split at h
      · simp at h
      · simp at h
      · rename_i dd heq2
        rw [Except.ok.injEq] at h
        subst h
        rw [alistGet_set, alistGet_set]
        by_cases hk1 : k = "log_level"
        · subst hk1
          rw [hG2] at heq
          rw [Option.some.injEq, CVal.str.injEq] at heq
          subst heq
          simp
        · by_cases hk2 : k = "data_dir"
          · subst hk2
            rw [alistGet_set] at heq2
            simp only [if_neg (by decide : ¬ ("log_level" : String) = "data_dir")] at heq2
            rw [hG2] at heq2
            rw [Option.some.injEq, CVal.str.injEq] at heq2
            subst heq2
            simp [hk1]
          · have h1 : ¬ ("data_dir" : String) = k := fun hh => hk2 hh.symm
            have h2 : ¬ ("log_level" : String) = k := fun hh => hk1 hh.symm
            rw [if_neg h1, if_neg h2, hG2, if_neg hk1, if_neg hk2]

/-- Witness for the amended C3 theorem at the concrete environment
`UA_LOG_LEVEL=debug`. -/
theorem parse_config_env_override_witness :
    alistGet [("sso_auth_url", CVal.str BASE_AUTH_URL),
              ("service_url", .str BASE_SERVICE_URL),
              ("data_dir", .str "/var/lib/ubuntu-advantage"),
              ("log_level", .str "DEBUG")] "log_level" =
      some (.str (if "log_level" = "log_level" then pyUpper "debug"
                  else if "log_level" = "data_dir"
                  then expanduser "/root" "debug" else "debug")) :=
  parse_config_env_override none [("UA_LOG_LEVEL", "debug")] "/root" _
    "log_level" "debug" (by rfl) (by rfl)

/-- C7: whenever `parse_config` returns a mapping, that mapping contains
every key of the default set — merging the file and the environment can
change values but never removes a default key. -/
theorem parse_config_keeps_default_keys :
    ∀ (fileCfg : Option (List (String × CVal))) (env : List (String × String))
      (home : String) (c : List (String × CVal)),
      parse_config fileCfg env home = .ok c →
      ∀ k, (alistGet CONFIG_DEFAULTS k).isSome = true →
        (alistGet c k).isSome = true := by
  have hset : ∀ (d : List (String × CVal)) (k k' : String) (v : CVal),
      (alistGet d k).isSome = true → (alistGet (alistSet d k' v) k).isSome = true := by
    intro d k k' v h
    rw [alistGet_set]
    by_cases hk : k' = k <;> simp [hk, h]
  have hupd : ∀ (d e : List (String × CVal)) (k : String),
      (alistGet d k).isSome = true → (alistGet (alistUpdate d e) k).isSome = true := by
    intro d e k h
    rw [alistGet_update]
    cases hlk : lastKey e k <;> simp [h]
  intro fileCfg env home c h k hk
  cases fileCfg <;> simp only [parse_config] at h <;>
  · split at h
    · simp at h
    · simp at h
    · rename_i lvl heq
      split at h
      · simp at h
      · simp at h
      · rename_i dd heq2
        rw [Except.ok.injEq] at h
        subst h
        apply hset
        apply hset
        first
        | exact hupd _ _ _ hk
        | exact hupd _ _ _ (hupd _ _ _ hk)

/-- Witness for C7: a run with a config file carrying a string
`log_level` succeeds and keeps the default key `sso_auth_url`. -/
theorem parse_config_keeps_default_keys_witness :
    (alistGet [("sso_auth_url", CVal.str BASE_AUTH_URL),
               ("service_url", .str BASE_SERVICE_URL),
               ("data_dir", .str "/var/lib/ubuntu-advantage"),
               ("log_level", .str "INFO")] "sso_auth_url").isSome = true :=
  parse_config_keeps_default_keys (some [("log_level", .str "info")]) [] "/h" _
    (by rfl) "sso_auth_url" (by rfl)

/-- C9: reading the `contract_url` property on a configuration that does
not define the key `contract_url` raises `KeyError`; in particular the
default set does not define it. -/
theorem contract_url_missing_raises_keyError :
    (∀ cfg : List (String × CVal), alistGet cfg "contract_url" = none →
      contract_url cfg = .error .keyError) ∧
    alistGet CONFIG_DEFAULTS "contract_url" = none := by
  constructor
  · intro cfg h
    unfold contract_url
    rw [h]
  · rfl

/-- Witness for C9 at the defaults-only configuration. -/
theorem contract_url_missing_raises_keyError_witness :
    contract_url CONFIG_DEFAULTS = .error .keyError :=
  contract_url_missing_raises_keyError.1 CONFIG_DEFAULTS (by rfl)

/-- C4: `data_path` is a pure total function of the key and the
configured data directory: the data directory itself for an empty key,
the fixed filename joined to the data directory for a key of the table,
the key itself joined as a relative filename otherwise; with the default
data directory it sends `machine-token` to
`/var/lib/ubuntu-advantage/machine-token.json` and `unknown-key` to
`/var/lib/ubuntu-advantage/unknown-key`. -/
theorem data_path_spec :
    ∀ dd key : String,
      (key = "" → data_path dd key = dd) ∧
      (∀ fn, alistGet data_paths key = some fn →
        data_path dd key = osPathJoin dd fn) ∧
      (key ≠ "" → alistGet data_paths key = none →
        data_path dd key = osPathJoin dd key) ∧
      data_path "/var/lib/ubuntu-advantage" "machine-token" =
        "/var/lib/ubuntu-advantage/machine-token.json" ∧
      data_path "/var/lib/ubuntu-advantage" "unknown-key" =
        "/var/lib/ubuntu-advantage/unknown-key" := by
  intro dd key
  refine ⟨?_, ?_, ?_, by rfl, by rfl⟩
  · intro h
    simp [data_path, h]
  · intro fn hfn
    by_cases hk : key = ""
    · subst hk
      rw [show alistGet data_paths "" = none from rfl] at hfn
      exact absurd hfn (by simp)
    · simp [data_path, hk, hfn]
  · intro hk hfn
    simp [data_path, hk, hfn]

/-- Witness for C4 at concrete keys of each of the three shapes. -/
theorem data_path_spec_witness :
    data_path "/d" "" = "/d" ∧
    data_path "/d" "macaroon" = osPathJoin "/d" "sso-macaroon.json" ∧
    data_path "/d" "zzz" = osPathJoin "/d" "zzz" :=
  ⟨(data_path_spec "/d" "").1 rfl,
   (data_path_spec "/d" "macaroon").2.1 "sso-macaroon.json" (by rfl),
   (data_path_spec "/d" "zzz").2.2.1 (by decide) (by rfl)⟩

/-- C5: when no file exists at the key's resolved path, `read_cache`
returns `None` rather than raising, and leaves the filesystem exactly as
it was. -/
theorem read_cache_missing_file :
    ∀ (dd : String) (fs : FileSystem) (key : String),
      fsLookup fs (data_path dd key) = none →
      read_cache_st dd fs key = (none, fs) := by
  intro dd fs key h
  simp only [read_cache_st, read_cache, h]

/-- Witness for C5 on an empty filesystem. -/
theorem read_cache_missing_file_witness :
    read_cache_st "/var/lib/ubuntu-advantage" ⟨[], []⟩ "accounts" =
      (none, (⟨[], []⟩ : FileSystem)) :=
  read_cache_missing_file "/var/lib/ubuntu-advantage" ⟨[], []⟩ "accounts" (by rfl)

theorem digitChar_toNat (d : Nat) (h : d < 10) : (digitChar d).toNat = 48 + d := by
  interval_cases d <;> rfl

theorem digitChar_isDigit (d : Nat) (h : d < 10) : (digitChar d).isDigit = true := by
  interval_cases d <;> rfl

theorem readDigits_spec :
    ∀ (l rest : List Char) (acc : Nat),
      (∀ c ∈ l, c.isDigit = true) → notDigitStart rest →
      readDigits (l ++ rest) acc =
        (l.foldl (fun a c => 10 * a + (c.toNat - 48)) acc, rest) := by
  intro l
  induction l with
  | nil =>
      intro rest acc _ hrest
      cases rest with
      | nil => rfl
      | cons c r =>
          simp only [notDigitStart] at hrest
          simp [readDigits, hrest]
  | cons c t ih =>
      intro rest acc hl hrest
      have hc : c.isDigit = true := hl c (by simp)
      simp only [List.cons_append, readDigits, hc, if_pos, List.append_eq]
      rw [ih rest _ (fun x hx => hl x (by simp [hx])) hrest]
      simp [List.foldl_cons]

theorem foldr_eq_ofDigits (l : List Nat) :
    l.foldr (fun d a => 10 * a + d) 0 = Nat.ofDigits 10 l := by
  induction l with
  | nil => simp [Nat.ofDigits]
  | cons d t ih =>
      simp only [List.foldr_cons, ih, Nat.ofDigits_cons]
      ring

theorem natChars_all_digits (n : Nat) : ∀ c ∈ natChars n, c.isDigit = true := by
  intro c hc
  unfold natChars at hc
  by_cases h : n = 0
  · simp [h] at hc
    subst hc
    rfl
  · simp only [h, if_neg, ite_false, List.mem_reverse, List.mem_map] at hc
    obtain ⟨d, hd, rfl⟩ := hc
    exact digitChar_isDigit d (Nat.digits_lt_base (by norm_num) hd)

theorem natChars_ne_nil (n : Nat) : natChars n ≠ [] := by
  unfold natChars
  by_cases h : n = 0
  · simp [h]
  · simp only [h, ite_false]
    intro hcon
    rw [List.reverse_eq_nil_iff, List.map_eq_nil_iff] at hcon
    exact (Nat.digits_ne_nil_iff_ne_zero.mpr h) hcon

theorem natChars_foldl (n : Nat) :
    (natChars n).foldl (fun a c => 10 * a + (c.toNat - 48)) 0 = n := by
  unfold natChars
  by_cases h : n = 0
  · simp [h]
  · simp only [h, ite_false]
    rw [← List.map_reverse, List.foldl_map]
    have hext : ((Nat.digits 10 n).reverse).foldl
        (fun a d => 10 * a + ((digitChar d).toNat - 48)) 0 =
        ((Nat.digits 10 n).reverse).foldl (fun a d => 10 * a + d) 0 := by
      apply List.foldl_ext
      intro a d hd
      rw [List.mem_reverse] at hd
      rw [digitChar_toNat d (Nat.digits_lt_base (by norm_num) hd)]
      omega
    rw [hext, List.foldl_reverse, foldr_eq_ofDigits, Nat.ofDigits_digits]

theorem isDigit_ne_minus (c : Char) (hc : c.isDigit = true) : c ≠ '-' := by
  intro h
  subst h
  simp at hc

theorem parseNum_digit (c : Char) (r : List Char) (hc : c.isDigit = true) :
    parseNum (c :: r) =
      some (.num ((readDigits (c :: r) 0).1 : Int), (readDigits (c :: r) 0).2) := by
  rw [parseNum.eq_def]
  split
  · rename_i c2 r2 heq
    rw [List.cons.injEq] at heq
    exact absurd heq.1 (isDigit_ne_minus c hc)
  · rename_i c2 r2 heq
    rw [List.cons.injEq] at heq
    obtain ⟨rfl, rfl⟩ := heq
    simp [hc]
  · rename_i heq
    exact absurd heq (by simp)

theorem parseNum_intChars (n : Int) (rest : List Char) (h : notDigitStart rest) :
    parseNum (intChars n ++ rest) = some (.num n, rest) := by
  by_cases hneg : n < 0
  · rw [show intChars n = '-' :: natChars n.natAbs from by simp [intChars, hneg]]
    obtain ⟨c, cs, hcs⟩ : ∃ c cs, natChars n.natAbs = c :: cs := by
      cases hn : natChars n.natAbs with
      | nil => exact absurd hn (natChars_ne_nil _)
      | cons c cs => exact ⟨c, cs, rfl⟩
    have hc : c.isDigit = true := natChars_all_digits n.natAbs c (by rw [hcs]; simp)
    rw [hcs]
    simp only [List.cons_append, parseNum, hc, if_pos]
    rw [show c :: (cs ++ rest) = (c :: cs) ++ rest from rfl, ← hcs]
    rw [readDigits_spec (natChars n.natAbs) rest 0 (natChars_all_digits _) h]
    rw [natChars_foldl]
    have : -((n.natAbs : Nat) : Int) = n := by omega
    rw [this]
  · rw [show intChars n = natChars n.toNat from by simp [intChars, hneg]]
    obtain ⟨c, cs, hcs⟩ : ∃ c cs, natChars n.toNat = c :: cs := by
      cases hn : natChars n.toNat with
      | nil => exact absurd hn (natChars_ne_nil _)
      | cons c cs => exact ⟨c, cs, rfl⟩
    have hc : c.isDigit = true := natChars_all_digits n.toNat c (by rw [hcs]; simp)
    rw [hcs, List.cons_append, parseNum_digit c _ hc]
    rw [show c :: (cs ++ rest) = (c :: cs) ++ rest from rfl, ← hcs]
    rw [readDigits_spec (natChars n.toNat) rest 0 (natChars_all_digits _) h]
    rw [natChars_foldl]
    have : ((n.toNat : Nat) : Int) = n := by omega
    rw [this]

theorem parseStrChars_esc (l : List Char) :
    ∀ rest, parseStrChars (escChars l ++ '"' :: rest) = some (l, rest) := by
  induction l with
  | nil => intro rest; rfl
  | cons c t ih =>
      intro rest
      by_cases hc : c = '"' ∨ c = '\\'
      · simp only [escChars, if_pos hc, List.cons_append]
        simp only [parseStrChars, ih]
      · simp only [escChars, if_neg hc, List.cons_append]
        rw [parseStrChars.eq_def]
        split
        · rename_i heq
          exact absurd heq (by simp)
        · rename_i r2 heq
          rw [List.cons.injEq] at heq
          exact absurd (Or.inl heq.1) hc
        · rename_i r2 heq
          rw [List.cons.injEq] at heq
          exact absurd (Or.inr heq.1) hc
        · rename_i c2 r2 _ _ heq
          rw [List.cons.injEq] at heq
          obtain ⟨rfl, rfl⟩ := heq
          rw [ih rest]

/-- Structural induction for `JVal` with membership hypotheses for the
nested lists. -/
theorem JVal.indStrong (P : JVal → Prop)
    (hnull : P .null) (hbool : ∀ b, P (.bool b)) (hnum : ∀ n, P (.num n))
    (hstr : ∀ s, P (.str s))
    (harr : ∀ l, (∀ v, v ∈ l → P v) → P (.arr l))
    (hobj : ∀ l, (∀ kv : String × JVal, kv ∈ l → P kv.2) → P (.obj l)) :
    ∀ v, P v := fun v =>
  match v with
  | .null => hnull
  | .bool b => hbool b
  | .num n => hnum n
  | .str s => hstr s
  | .arr l => harr l (fun u hu =>
      have : sizeOf u < 1 + sizeOf l := by
        have := List.sizeOf_lt_of_mem hu
        omega
      JVal.indStrong P hnull hbool hnum hstr harr hobj u)
  | .obj l => hobj l (fun kv hkv =>
      have : sizeOf kv.2 < 1 + sizeOf l := by
        have h1 := List.sizeOf_lt_of_mem hkv
        obtain ⟨a, b⟩ := kv
        simp only [Prod.mk.sizeOf_spec] at h1 ⊢
        omega
      JVal.indStrong P hnull hbool hnum hstr harr hobj kv.2)
termination_by v => sizeOf v

theorem sizeV_pos (v : JVal) : 1 ≤ sizeV v := by
  cases v <;> simp [sizeV]

theorem isDigit_of_notDigitStart_ne (c : Char) (r : List Char)
    (h : notDigitStart (c :: r)) : c.isDigit = false := h

theorem dumpVal_start (v : JVal) :
    ∃ c cs, dumpVal v = c :: cs ∧ c ≠ ']' ∧ c ≠ '}' := by
  cases v with
  | null => exact ⟨'n', _, rfl, by decide, by decide⟩
  | bool b =>
      cases b with
      | false => exact ⟨'f', _, rfl, by decide, by decide⟩
      | true => exact ⟨'t', _, rfl, by decide, by decide⟩
  | num n =>
      by_cases hneg : n < 0
      · refine ⟨'-', natChars n.natAbs, ?_, by decide, by decide⟩
        simp [dumpVal, intChars, hneg]
      · obtain ⟨c, cs, hcs⟩ : ∃ c cs, natChars n.toNat = c :: cs := by
          cases hn : natChars n.toNat with
          | nil => exact absurd hn (natChars_ne_nil _)
          | cons c cs => exact ⟨c, cs, rfl⟩
        have hc : c.isDigit = true := natChars_all_digits n.toNat c (by rw [hcs]; simp)
        refine ⟨c, cs, ?_, ?_, ?_⟩
        · simp [dumpVal, intChars, hneg, hcs]
        · intro hh; subst hh; simp at hc
        · intro hh; subst hh; simp at hc
  | str s => exact ⟨'"', _, rfl, by decide, by decide⟩
  | arr l =>
      cases l with
      | nil => exact ⟨'[', _, rfl, by decide, by decide⟩
      | cons v t => exact ⟨'[', _, rfl, by decide, by decide⟩
  | obj l =>
      cases l with
      | nil => exact ⟨'{', _, rfl, by decide, by decide⟩
      | cons m t => exact ⟨'{', _, rfl, by decide, by decide⟩

theorem parseItems_dump_aux :
    ∀ (t : List JVal) (v : JVal),
      (∀ u, u ∈ v :: t → ∀ fuel rest, sizeV u ≤ fuel → notDigitStart rest →
        parseVal fuel (dumpVal u ++ rest) = some (u, rest)) →
      ∀ (fuel : Nat) (rest : List Char), sizeA (v :: t) ≤ fuel → notDigitStart rest →
        parseItems fuel (dumpVal v ++ (dumpITail t ++ rest)) = some (v :: t, rest) := by
  intro t
  induction t with
  | nil =>
      intro v hIH fuel rest hsz hrest
      have hsz1 : 1 + sizeV v ≤ fuel := by simpa [sizeA] using hsz
      cases fuel with
      | zero => omega
      | succ f =>
          simp only [dumpITail, List.singleton_append]
          simp only [parseItems]
          simp only [hIH v (by simp) f (']' :: rest) (by omega) (by exact rfl)]
  | cons v1 t1 ihlist =>
      intro v hIH fuel rest hsz hrest
      have hsz1 : 1 + sizeV v + sizeA (v1 :: t1) ≤ fuel := by simpa [sizeA] using hsz
      have hv1 : 1 ≤ sizeV v := sizeV_pos v
      have ha1 : 1 ≤ sizeA (v1 :: t1) := by
        have := sizeV_pos v1
        simp [sizeA]
        omega
      cases fuel with
      | zero => omega
      | succ f =>
          simp only [dumpITail, List.cons_append, List.append_assoc]
          simp only [parseItems]
          simp only [hIH v (by simp) f (',' :: (dumpVal v1 ++ (dumpITail t1 ++ rest)))
            (by omega) (by exact rfl)]
          simp only [ihlist v1 (fun u hu => hIH u (by simp [hu])) f rest (by omega) hrest]

theorem parseMembers_dump_aux :
    ∀ (t : List (String × JVal)) (k : String) (v : JVal),
      (∀ u : String × JVal, u ∈ (k, v) :: t → ∀ fuel rest, sizeV u.2 ≤ fuel →
        notDigitStart rest → parseVal fuel (dumpVal u.2 ++ rest) = some (u.2, rest)) →
      ∀ (fuel : Nat) (rest : List Char), sizeO ((k, v) :: t) ≤ fuel → notDigitStart rest →
        parseMembers fuel (dumpMember (k, v) ++ (dumpOTail t ++ rest)) =
          some ((k, v) :: t, rest) := by
  intro t
  induction t with
  | nil =>
      intro k v hIH fuel rest hsz hrest
      have hsz1 : 1 + sizeV v ≤ fuel := by simpa [sizeO] using hsz
      cases fuel with
      | zero => omega
      | succ f =>
          obtain ⟨kd⟩ := k
          simp only [dumpMember, dumpOTail, List.cons_append, List.append_assoc,
            List.singleton_append, List.nil_append]
          simp only [parseMembers]
          simp only [parseStrChars_esc kd (':' :: (dumpVal v ++ ('}' :: rest)))]
          have hv : parseVal f (dumpVal v ++ ('}' :: rest)) = some (v, '}' :: rest) :=
            hIH ⟨⟨kd⟩, v⟩ (by simp) f ('}' :: rest) (by show sizeV v ≤ f; omega)
              (by exact rfl)
          simp only [hv]
  | cons m1 t1 ihlist =>
      intro k v hIH fuel rest hsz hrest
      obtain ⟨k1, v1⟩ := m1
      have hsz1 : 1 + sizeV v + sizeO ((k1, v1) :: t1) ≤ fuel := by
        simpa [sizeO] using hsz
      have hv1 : 1 ≤ sizeV v := sizeV_pos v
      have ho1 : 1 ≤ sizeO ((k1, v1) :: t1) := by
        have := sizeV_pos v1
        simp [sizeO]
        omega
      cases fuel with
      | zero => omega
      | succ f =>
          obtain ⟨kd⟩ := k
          rw [show dumpMember (⟨⟨kd⟩, v⟩ : String × JVal) =
              '"' :: (escChars kd ++ '"' :: ':' :: dumpVal v) from rfl]
          rw [show dumpOTail ((k1, v1) :: t1) =
              ',' :: (dumpMember (k1, v1) ++ dumpOTail t1) from rfl]
          simp only [List.cons_append, List.append_assoc, List.nil_append]
          simp only [parseMembers]
          simp only [parseStrChars_esc kd
            (':' :: (dumpVal v ++ (',' :: (dumpMember (k1, v1) ++ (dumpOTail t1 ++ rest)))))]
          have hv : parseVal f
              (dumpVal v ++ (',' :: (dumpMember (k1, v1) ++ (dumpOTail t1 ++ rest)))) =
              some (v, ',' :: (dumpMember (k1, v1) ++ (dumpOTail t1 ++ rest))) :=
            hIH ⟨⟨kd⟩, v⟩ (by simp) f _ (by show sizeV v ≤ f; omega) (by exact rfl)
          simp only [hv]
          simp only [ihlist k1 v1 (fun u hu => hIH u (by simp [hu])) f rest
            (by omega) hrest]

theorem parseVal_dump :
    ∀ (v : JVal) (fuel : Nat) (rest : List Char),
      sizeV v ≤ fuel → notDigitStart rest →
      parseVal fuel (dumpVal v ++ rest) = some (v, rest) := by
  intro v
  induction v using JVal.indStrong with
  | hnull =>
      intro fuel rest hf hrest
      cases fuel with
      | zero => simp [sizeV] at hf
      | succ f =>
          show parseVal (f + 1) (['n', 'u', 'l', 'l'] ++ rest) = _
          simp only [List.cons_append, List.nil_append, parseVal]
          rw [if_neg (by decide), if_pos (by decide)]
  | hbool b =>
      intro fuel rest hf hrest
      cases fuel with
      | zero => simp [sizeV] at hf
      | succ f =>
          cases b with
          | true =>
              show parseVal (f + 1) (['t', 'r', 'u', 'e'] ++ rest) = _
              simp only [List.cons_append, List.nil_append, parseVal]
              rw [if_neg (by decide), if_neg (by decide), if_pos (by decide)]
          | false =>
              show parseVal (f + 1) (['f', 'a', 'l', 's', 'e'] ++ rest) = _
              simp only [List.cons_append, List.nil_append, parseVal]
              rw [if_neg (by decide), if_neg (by decide), if_neg (by decide),
                if_pos (by decide)]
  | hnum n =>
      intro fuel rest hf hrest
      cases fuel with
      | zero => simp [sizeV] at hf
      | succ f =>
          rw [show dumpVal (.num n) = intChars n from rfl]
          by_cases hneg : n < 0
          · rw [show intChars n = '-' :: natChars n.natAbs from by
              simp [intChars, hneg]]
            simp only [List.cons_append, parseVal]
            rw [if_pos (by simp : '-'.isDigit = true ∨ True)]
            rw [show '-' :: (natChars n.natAbs ++ rest) = intChars n ++ rest from by
              simp [intChars, hneg]]
            exact parseNum_intChars n rest hrest
          · obtain ⟨c, cs, hcs⟩ : ∃ c cs, natChars n.toNat = c :: cs := by
              cases hn : natChars n.toNat with
              | nil => exact absurd hn (natChars_ne_nil _)
              | cons c cs => exact ⟨c, cs, rfl⟩
            have hc : c.isDigit = true :=
              natChars_all_digits n.toNat c (by rw [hcs]; simp)
            rw [show intChars n = natChars n.toNat from by simp [intChars, hneg], hcs]
            simp only [List.cons_append, parseVal]
            rw [if_pos (Or.inl hc)]
            rw [show c :: (cs ++ rest) = (c :: cs) ++ rest from rfl, ← hcs,
              show natChars n.toNat = intChars n from by simp [intChars, hneg]]
            exact parseNum_intChars n rest hrest
  | hstr s =>
      obtain ⟨sd⟩ := s
      intro fuel rest hf hrest
      cases fuel with
      | zero => simp [sizeV] at hf
      | succ f =>
          rw [show dumpVal (.str ⟨sd⟩) ++ rest = '"' :: (escChars sd ++ '"' :: rest)
            from by simp [dumpVal]]
          simp only [parseVal]
          rw [if_neg (by decide), if_neg (by decide), if_neg (by decide),
            if_neg (by decide), if_pos (by decide)]
          simp only [parseStrChars_esc sd rest]
  | harr l ih =>
      cases l with
      | nil =>
          intro fuel rest hf hrest
          cases fuel with
          | zero => simp [sizeV] at hf
          | succ f =>
              show parseVal (f + 1) (['[', ']'] ++ rest) = _
              simp only [List.cons_append, List.nil_append, parseVal]
              rw [if_neg (by decide), if_neg (by decide), if_neg (by decide),
                if_neg (by decide), if_neg (by decide), if_pos (by decide)]
      | cons v0 t =>
          intro fuel rest hf hrest
          have hsz : 1 + sizeA (v0 :: t) ≤ fuel := by simpa [sizeV] using hf
          cases fuel with
          | zero => omega
          | succ f =>
              rw [show dumpVal (.arr (v0 :: t)) ++ rest =
                  '[' :: (dumpVal v0 ++ (dumpITail t ++ rest)) from by
                simp [dumpVal]]
              simp only [parseVal]
              rw [if_neg (by decide), if_neg (by decide), if_neg (by decide),
                if_neg (by decide), if_neg (by decide), if_pos (by decide)]
              obtain ⟨c, cs, hcs, hc1, hc2⟩ := dumpVal_start v0
              rw [hcs, List.cons_append]
              split
              · rename_i r2 heq
                rw [List.cons.injEq] at heq
                exact absurd heq.1 hc1
              · rw [← List.cons_append, ← hcs]
                simp only [parseItems_dump_aux t v0 ih f rest (by omega) hrest]
  | hobj l ih =>
      cases l with
      | nil =>
          intro fuel rest hf hrest
          cases fuel with
          | zero => simp [sizeV] at hf
          | succ f =>
              show parseVal (f + 1) (['{', '}'] ++ rest) = _
              simp only [List.cons_append, List.nil_append, parseVal]
              rw [if_neg (by decide), if_neg (by decide), if_neg (by decide),
                if_neg (by decide), if_neg (by decide), if_neg (by decide),
                if_pos (by decide)]
      | cons m0 t =>
          obtain ⟨k0, w0⟩ := m0
          intro fuel rest hf hrest
          have hsz : 1 + sizeO ((k0, w0) :: t) ≤ fuel := by simpa [sizeV] using hf
          cases fuel with
          | zero => omega
          | succ f =>
              rw [show dumpVal (.obj ((k0, w0) :: t)) ++ rest =
                  '{' :: (dumpMember (k0, w0) ++ (dumpOTail t ++ rest)) from by
                simp [dumpVal]]
              simp only [parseVal]
              rw [if_neg (by decide), if_neg (by decide), if_neg (by decide),
                if_neg (by decide), if_neg (by decide), if_neg (by decide),
                if_pos (by decide)]
              rw [show dumpMember (k0, w0) ++ (dumpOTail t ++ rest) =
                  '"' :: ((escChars k0.data ++ '"' :: ':' :: dumpVal w0) ++
                    (dumpOTail t ++ rest)) from rfl]
              split
              · rename_i r2 heq
                rw [List.cons.injEq] at heq
                exact absurd heq.1 (by decide)
              · rw [show ('"' : Char) :: ((escChars k0.data ++ '"' :: ':' :: dumpVal w0) ++
                    (dumpOTail t ++ rest)) =
                  dumpMember (k0, w0) ++ (dumpOTail t ++ rest) from rfl]
                simp only [parseMembers_dump_aux t k0 w0 ih f rest (by omega) hrest]

theorem intChars_ne_nil (n : Int) : intChars n ≠ [] := by
  unfold intChars
  by_cases h : n < 0
  · simp [h]
  · simp only [h, ite_false]
    exact natChars_ne_nil _

theorem sizeV_le_dump_len : ∀ v : JVal, sizeV v ≤ (dumpVal v).length := by
  intro v
  induction v using JVal.indStrong with
  | hnull => simp [sizeV, dumpVal]
  | hbool b => cases b <;> simp [sizeV, dumpVal]
  | hnum n =>
      have h := intChars_ne_nil n
      have : 1 ≤ (intChars n).length := by
        cases hn : intChars n with
        | nil => exact absurd hn h
        | cons c cs => simp
      simpa [sizeV, dumpVal] using this
  | hstr s => simp [sizeV, dumpVal]
  | harr l ih =>
      have aux : ∀ t : List JVal, (∀ u ∈ t, sizeV u ≤ (dumpVal u).length) →
          1 + sizeA t ≤ (dumpITail t).length := by
        intro t
        induction t with
        | nil => intro _; simp [sizeA, dumpITail]
        | cons u t' ihx =>
            intro hm
            have h1 := hm u (by simp)
            have h2 := ihx (fun x hx => hm x (by simp [hx]))
            simp only [sizeA, dumpITail, List.length_cons, List.length_append]
            omega
      cases l with
      | nil => simp [sizeV, sizeA, dumpVal]
      | cons v0 t =>
          have h1 := ih v0 (by simp)
          have h2 := aux t (fun x hx => ih x (by simp [hx]))
          simp only [sizeV, sizeA, dumpVal, List.length_cons, List.length_append]
          omega
  | hobj l ih =>
      have aux : ∀ t : List (String × JVal), (∀ u ∈ t, sizeV u.2 ≤ (dumpVal u.2).length) →
          1 + sizeO t ≤ (dumpOTail t).length := by
        intro t
        induction t with
        | nil => intro _; simp [sizeO, dumpOTail]
        | cons u t' ihx =>
            intro hm
            obtain ⟨k, w⟩ := u
            have h1 := hm (k, w) (by simp)
            have h2 := ihx (fun x hx => hm x (by simp [hx]))
            simp only [sizeO, dumpOTail, dumpMember, List.length_cons,
              List.length_append] at h1 h2 ⊢
            omega
      cases l with
      | nil => simp [sizeV, sizeO, dumpVal]
      | cons m0 t =>
          obtain ⟨k0, w0⟩ := m0
          have h1 := ih (k0, w0) (by simp)
          have h2 := aux t (fun x hx => ih x (by simp [hx]))
          simp only [sizeV, sizeO, dumpVal, dumpMember, List.length_cons,
            List.length_append] at h1 h2 ⊢
          omega

/-- The JSON library round-trip: parsing a serialized value returns the
value. -/
theorem maybe_parse_json_dumps (v : JVal) : maybe_parse_json (dumps v) = some v := by
  unfold maybe_parse_json dumps
  rw [show (String.mk (dumpVal v)).data = dumpVal v from rfl]
  have h := parseVal_dump v ((dumpVal v).length + 1) []
    (by have := sizeV_le_dump_len v; omega) trivial
  rw [List.append_nil] at h
  rw [h]

theorem fsLookup_write (fs : FileSystem) (p c : String) :
    fsLookup (fsWrite fs p c) p = some c := by
  simp [fsLookup, fsWrite, alistGet_set]

/-- C2 counterexample: writing the JSON-serializable structured value
`{}` (an empty object) and reading it back yields the raw text `"{}"`,
not a value deep-equal to `{}`: the parsed JSON is falsy, so `read_cache`
falls back to the raw file content. -/
theorem write_read_cache_cex :
    read_cache "/var/lib/ubuntu-advantage"
      (write_cache "/var/lib/ubuntu-advantage" ⟨[], []⟩ "machine-token"
        (.ofJson (.obj []))) "machine-token" = some (.ofStr "{}") ∧
    CacheContent.ofStr "{}" ≠ CacheContent.ofJson (.obj []) :=
  ⟨by rfl, fun h => CacheContent.noConfusion h⟩

/-- C2 (amended): the write-then-read round-trip law holds for every
*truthy* JSON-serializable structured value (for falsy ones — `{}`,
`[]`, `0`, `false`, `null`, `""` — `read_cache` returns the serialized
text instead). -/
theorem write_read_cache_roundtrip :
    ∀ (dd : String) (fs : FileSystem) (key : String) (v : JVal),
      jTruthy v = true →
      read_cache dd (write_cache dd fs key (.ofJson v)) key =
        some (.ofJson v) := by
  intro dd fs key v hv
  unfold write_cache
  simp only []
  unfold read_cache
  simp only [fsLookup_write]
  rw [maybe_parse_json_dumps v]
  simp only [hv, if_pos]

/-- Witness for the amended C2 at a concrete truthy array. -/
theorem write_read_cache_roundtrip_witness :
    read_cache "/d" (write_cache "/d" ⟨[], []⟩ "accounts"
      (.ofJson (.arr [.num 1]))) "accounts" =
      some (.ofJson (.arr [.num 1])) :=
  write_read_cache_roundtrip "/d" ⟨[], []⟩ "accounts" (.arr [.num 1]) (by rfl)

/-- C8: `is_attached` is `bool(machine_token)`; on a fresh instance it is
false when no `machine-token` cache file exists, and true immediately
after `write_cache('machine-token', v)` for truthy JSON `v`. -/
theorem is_attached_spec :
    ∀ (dd : String) (memo : Option CacheContent) (fs : FileSystem) (v : JVal),
      (is_attached dd memo fs = truthyOpt (machine_token dd memo fs)) ∧
      (fsLookup fs (data_path dd "machine-token") = none →
        is_attached dd none fs = false) ∧
      (jTruthy v = true →
        is_attached dd none (write_cache dd fs "machine-token" (.ofJson v)) = true) := by
  intro dd memo fs v
  refine ⟨rfl, ?_, ?_⟩
  · intro h
    simp only [is_attached, machine_token, truthyOpt, if_neg]
    unfold read_cache
    simp only [h]
    rfl
  · intro hv
    simp only [is_attached, machine_token, truthyOpt, if_neg]
    rw [write_read_cache_roundtrip dd fs "machine-token" v hv]
    simpa [contentTruthy] using hv

/-- Witness for C8 on an empty filesystem and a concrete truthy token. -/
theorem is_attached_spec_witness :
    is_attached "/var/lib/ubuntu-advantage" none ⟨[], []⟩ = false ∧
    is_attached "/var/lib/ubuntu-advantage" none
      (write_cache "/var/lib/ubuntu-advantage" ⟨[], []⟩ "machine-token"
        (.ofJson (.obj [("machineTokenInfo", .str "t")]))) = true := by
  have h := is_attached_spec "/var/lib/ubuntu-advantage" none ⟨[], []⟩
    (.obj [("machineTokenInfo", .str "t")])
  exact ⟨h.2.1 (by rfl), h.2.2 (by rfl)⟩

/-- C10: when the cache file exists and its content is one of the falsy
JSON texts, `read_cache` returns the raw text string, because the parsed
JSON value is only returned when truthy. -/
theorem read_cache_falsy_json_text :
    ∀ (dd : String) (fs : FileSystem) (key content : String),
      fsLookup fs (data_path dd key) = some content →
      (content = "0" ∨ content = "false" ∨ content = "null" ∨
       content = "{}" ∨ content = "[]" ∨ content = "\"\"") →
      read_cache dd fs key = some (.ofStr content) := by
  intro dd fs key content hl hc
  unfold read_cache
  simp only [hl]
  rcases hc with rfl | rfl | rfl | rfl | rfl | rfl <;> rfl

/-- Witness for C10 at a concrete file holding the text `0`. -/
theorem read_cache_falsy_json_text_witness :
    read_cache "/d" ⟨[("/d/x", "0")], []⟩ "x" = some (.ofStr "0") :=
  read_cache_falsy_json_text "/d" ⟨[("/d/x", "0")], []⟩ "x" "0" (by rfl)
    (Or.inl rfl)
